import Mathlib

/-!
# Rune Buffer: block-structured editable rune sequence

A shallow embedding of the Rune Buffer of this repository: an in-memory
editable sequence of Unicode code points backed by an ordered list of
fixed-capacity blocks plus a reuse pool for freed block storage.

The repository ships only the test file `buffer/buffer_test.go` for this
component; the implementation file itself is absent. The definitions below
are therefore modelled from the specification (spec.md §3–§4), and every
concrete scenario of the test file is re-checked against the model.

A block is represented by its list of valid runes (`storage[0..n)`); the
unused trailing capacity of a block is unobservable and is not represented.
The reuse pool holds freed blocks whose contents are undefined, so it is
represented by the number of blocks it holds. Offsets keep the Go `int64`
signedness and are represented by `Int`.
-/

namespace TBuf

/-- Modelled from the spec: the error taxonomy of §7 — `InvalidOffset` for a
bad offset argument, `EndOfInput` alongside a partial read. -/
inductive Err where
  | invalidOffset
  | endOfInput
deriving DecidableEq, Repr

/-- Modelled from the spec: the Rune Buffer state of §3 — an immutable
`blockSize`, the ordered `blocks` sequence (each block given by its valid
contents), the reuse pool (`free` counts its blocks, whose storage contents
are undefined), and the incrementally tracked total rune count `size`. -/
structure Runes where
  blockSize : Nat
  blocks : List (List Char)
  free : Nat
  size : Nat
deriving DecidableEq, Repr

/-- Modelled from the spec: `New(blockSize)` constructs an empty buffer —
empty sequence, empty pool, size 0. -/
def Runes.new (bs : Nat) : Runes :=
  { blockSize := bs, blocks := [], free := 0, size := 0 }

/-- The document text: concatenation of the valid contents of the in-use
blocks in sequence order. -/
def Runes.text (b : Runes) : List Char :=
  b.blocks.flatten

/-- Chunking worker, structurally recursive on a fuel bound so that it
reduces inside the kernel; `chunksOf` supplies `fuel = text.length`, which
always suffices since every step consumes at least one rune. -/
def chunksGo (bs : Nat) : Nat → List Char → List (List Char)
  | 0, _ => []
  | _ + 1, [] => []
  | fuel + 1, c :: rest => (c :: rest.take (bs - 1)) :: chunksGo bs fuel (rest.drop (bs - 1))

/-- Modelled from the spec: partition `text` into ordered chunks of at most
`bs` code points each; chunking preserves order, the last chunk may be
shorter (§4.2). -/
def chunksOf (bs : Nat) (text : List Char) : List (List Char) :=
  chunksGo bs text.length text

/-- Modelled from the spec: the replacement list for the target block of an
insert — a block holding the target's contents before the local offset
(omitted if empty), one block per chunk of `text`, a block holding the
contents from the local offset on (omitted if empty) (§4.2). -/
def replaceBlock (bs : Nat) (text blk : List Char) (off : Nat) : List (List Char) :=
  (if blk.take off = [] then [] else [blk.take off])
    ++ chunksOf bs text
    ++ (if blk.drop off = [] then [] else [blk.drop off])

/-- Modelled from the spec: insert at the block-sequence level. The global
offset is resolved by scanning cumulative block sizes; an offset exactly on a
block boundary resolves to the start of the following block, except an offset
equal to the total size, which resolves to the end of the last block (or to
"no block" when the sequence is empty); the target block is then replaced by
its replacement list (§4.1, §4.2). -/
def insertBlocks (bs : Nat) (text : List Char) : List (List Char) → Nat → List (List Char)
  | [], _ => chunksOf bs text
  | blk :: rest, off =>
    if off < blk.length then
      replaceBlock bs text blk off ++ rest
    else if off = blk.length ∧ rest = [] then
      replaceBlock bs text blk off
    else
      blk :: insertBlocks bs text rest (off - blk.length)

/-- Modelled from the spec: `Insert(text, at)` (§4.2). Fails with
`InvalidOffset` when `at < 0` or `at > size`, leaving the buffer unchanged
and returning 0. Empty `text` is a no-op returning 0. Otherwise the target
block is replaced by its replacement list; the freed target returns to the
pool and every block of the replacement list is taken preferentially from
the pool, with fresh storage allocated only when the pool is exhausted.
Returns the number of runes inserted, the error, and the new state. -/
def Runes.insert (b : Runes) (text : List Char) (off : Int) : Nat × Option Err × Runes :=
  if off < 0 ∨ (b.size : Int) < off then
    (0, some .invalidOffset, b)
  else if text = [] then
    (0, none, b)
  else
    let bls := insertBlocks b.blockSize text b.blocks off.toNat
    let freed := if b.blocks = [] then 0 else 1
    let made := bls.length + freed - b.blocks.length
    (text.length, none,
      { b with
          blocks := bls
          free := b.free + freed - min (b.free + freed) made
          size := b.size + text.length })

/-- Modelled from the spec: delete at the block-sequence level, walking the
blocks overlapping `[off, off+count)` (§4.3). A block entirely contained in
the range is removed; a partially overlapped block has the overlap removed in
place; a block left empty moves to the pool. Returns the new block list, the
number of blocks freed to the pool, and the number of runes removed. -/
def deleteBlocks : List (List Char) → Nat → Nat → List (List Char) × Nat × Nat
  | [], _, _ => ([], 0, 0)
  | blk :: rest, off, count =>
    if count = 0 then
      (blk :: rest, 0, 0)
    else if blk.length ≤ off then
      let r := deleteBlocks rest (off - blk.length) count
      (blk :: r.1, r.2.1, r.2.2)
    else
      let removed := min (blk.length - off) count
      let blk' := blk.take off ++ blk.drop (off + removed)
      let r := deleteBlocks rest 0 (count - removed)
      if blk' = [] then (r.1, r.2.1 + 1, r.2.2 + removed)
      else (blk' :: r.1, r.2.1, r.2.2 + removed)

/-- Modelled from the spec: `Delete(count, at)` (§4.3). Fails with
`InvalidOffset` when `at < 0` or `at > size - count`, leaving the buffer
unchanged and returning 0. Otherwise removes the runes in `[at, at+count)`,
moves emptied blocks to the pool, and decreases `size` by the number removed.
Returns the number actually removed, the error, and the new state. -/
def Runes.delete (b : Runes) (count off : Int) : Int × Option Err × Runes :=
  if off < 0 ∨ (b.size : Int) - count < off then
    (0, some .invalidOffset, b)
  else
    let r := deleteBlocks b.blocks off.toNat count.toNat
    ((r.2.2 : Int), none,
      { b with blocks := r.1, free := b.free + r.2.1, size := b.size - r.2.2 })

/-- Modelled from the spec: the streaming read walk of §4.4 — copy up to `m`
consecutive runes starting at global offset `off`, traversing blocks in
order, continuing across block boundaries until `m` runes are copied or the
document runs out. Returns the runes copied. -/
def readBlocks : List (List Char) → Nat → Nat → List Char
  | [], _, _ => []
  | blk :: rest, off, m =>
    if m = 0 then []
    else if blk.length ≤ off then readBlocks rest (off - blk.length) m
    else
      let seg := (blk.drop off).take m
      seg ++ readBlocks rest 0 (m - seg.length)

/-- Modelled from the spec: `Read(dest, at)` with a destination of length `m`
(§4.4). Fails with `InvalidOffset` only when `at < 0`. A zero-length
destination always succeeds with 0 copied and no error. Otherwise copies
`min(m, size - at)` runes; when fewer than `m` were copied the partial count
is returned together with `EndOfInput`, and when exactly `m` were copied no
error is returned. Returns the count, the error, and the runes copied. -/
def Runes.read (b : Runes) (m : Nat) (off : Int) : Nat × Option Err × List Char :=
  if off < 0 then
    (0, some .invalidOffset, [])
  else if m = 0 then
    (0, none, [])
  else
    let rs := readBlocks b.blocks off.toNat m
    (rs.length, if rs.length < m then some .endOfInput else none, rs)

/-- The structural invariant of §3: the tracked `size` equals the total
length of the document text, and every block in the sequence is nonempty. -/
def Wf (b : Runes) : Prop :=
  b.size = b.text.length ∧ ∀ blk ∈ b.blocks, blk ≠ []

/-- Buffer states reachable from `New(blockSize)` (with positive block size)
by any sequence of `Insert` and `Delete` operations (`Read` and `Size` do
not change state). -/
inductive Reachable : Runes → Prop where
  | new (bs : Nat) : 1 ≤ bs → Reachable (Runes.new bs)
  | insert {b : Runes} (text : List Char) (off : Int) :
      Reachable b → Reachable (b.insert text off).2.2
  | delete {b : Runes} (count off : Int) :
      Reachable b → Reachable (b.delete count off).2.2

/-! ## Basic lemmas about the block-level operations -/

theorem chunksGo_flatten (bs : Nat) : ∀ (fuel : Nat) (text : List Char),
    text.length ≤ fuel → (chunksGo bs fuel text).flatten = text
  | 0, text, h => by
    have htext : text = [] := List.length_eq_zero.mp (Nat.le_zero.mp h)
    subst htext
    rfl
  | _ + 1, [], _ => rfl
  | fuel + 1, c :: rest, h => by
    rw [chunksGo]
    simp only [List.flatten_cons]
    rw [chunksGo_flatten bs fuel (rest.drop (bs - 1))
      (by simp only [List.length_drop]; simp at h; omega)]
    simp

theorem chunksOf_flatten (bs : Nat) (text : List Char) :
    (chunksOf bs text).flatten = text :=
  chunksGo_flatten bs text.length text (Nat.le_refl _)

theorem chunksGo_ne_nil (bs : Nat) : ∀ (fuel : Nat) (text : List Char),
    ∀ blk ∈ chunksGo bs fuel text, blk ≠ []
  | 0, _ => by simp [chunksGo]
  | _ + 1, [] => by simp [chunksGo]
  | fuel + 1, c :: rest => by
    intro blk hblk
    rw [chunksGo] at hblk
    rcases List.mem_cons.mp hblk with h | h
    · simp [h]
    · exact chunksGo_ne_nil bs fuel (rest.drop (bs - 1)) blk h

theorem chunksOf_ne_nil (bs : Nat) (text : List Char) :
    ∀ blk ∈ chunksOf bs text, blk ≠ [] :=
  chunksGo_ne_nil bs text.length text

theorem replaceBlock_flatten (bs : Nat) (text blk : List Char) (off : Nat) :
    (replaceBlock bs text blk off).flatten
      = blk.take off ++ text ++ blk.drop off := by
  unfold replaceBlock
  by_cases h1 : blk.take off = [] <;> by_cases h2 : blk.drop off = [] <;>
    simp [h1, h2, chunksOf_flatten]

theorem insertBlocks_flatten (bs : Nat) (text : List Char) :
    ∀ (blocks : List (List Char)) (off : Nat),
      off ≤ blocks.flatten.length →
      (insertBlocks bs text blocks off).flatten
        = blocks.flatten.take off ++ text ++ blocks.flatten.drop off := by
  intro blocks
  induction blocks with
  | nil =>
    intro off hoff
    simp at hoff
    simp [insertBlocks, hoff, chunksOf_flatten]
  | cons blk rest ih =>
    intro off hoff
    rw [insertBlocks]
    split
    · rename_i hlt
      rw [List.flatten_append, replaceBlock_flatten, List.flatten_cons,
        List.take_append_eq_append_take, List.drop_append_eq_append_drop,
        Nat.sub_eq_zero_of_le (Nat.le_of_lt hlt)]
      simp
    · split
      · rename_i hlt hend
        obtain ⟨hoff', hrest⟩ := hend
        subst hrest
        rw [replaceBlock_flatten]
        simp [hoff']
      · rename_i hlt hend
        have hge : blk.length ≤ off := Nat.le_of_not_lt hlt
        rw [List.flatten_cons, List.length_append] at hoff
        rw [List.flatten_cons, List.flatten_cons, ih (off - blk.length) (by omega),
          List.take_append_eq_append_take, List.drop_append_eq_append_drop,
          List.take_of_length_le hge, List.drop_of_length_le hge]
        simp

theorem insertBlocks_ne_nil (bs : Nat) (text : List Char) :
    ∀ (blocks : List (List Char)) (off : Nat),
      (∀ blk ∈ blocks, blk ≠ []) →
      ∀ blk ∈ insertBlocks bs text blocks off, blk ≠ [] := by
  intro blocks
  induction blocks with
  | nil =>
    intro off _ blk hblk
    exact chunksOf_ne_nil bs text blk hblk
  | cons b0 rest ih =>
    intro off hall blk hblk
    have hrep : ∀ c ∈ replaceBlock bs text b0 off, c ≠ [] := by
      intro c hc
      unfold replaceBlock at hc
      simp only [List.mem_append] at hc
      rcases hc with (hc | hc) | hc
      · split at hc <;> simp_all
      · exact chunksOf_ne_nil bs text c hc
      · split at hc <;> simp_all
    rw [insertBlocks] at hblk
    split at hblk
    · rcases List.mem_append.mp hblk with h | h
      · exact hrep blk h
      · exact hall blk (List.mem_cons_of_mem _ h)
    · split at hblk
      · exact hrep blk hblk
      · rcases List.mem_cons.mp hblk with h | h
        · exact h ▸ hall b0 (List.mem_cons_self _ _)
        · exact ih (off - b0.length) (fun c hc => hall c (List.mem_cons_of_mem _ hc)) blk h

theorem readBlocks_cons_copy (blk : List Char) (rest : List (List Char)) (off m : Nat)
    (hm : m ≠ 0) (hlt : ¬ blk.length ≤ off) :
    readBlocks (blk :: rest) off m
      = (blk.drop off).take m
          ++ readBlocks rest 0 (m - ((blk.drop off).take m).length) := by
  rw [readBlocks]
  simp [hm, hlt]

theorem readBlocks_eq :
    ∀ (blocks : List (List Char)) (off m : Nat),
      readBlocks blocks off m = (blocks.flatten.drop off).take m := by
  intro blocks
  induction blocks with
  | nil => intro off m; simp [readBlocks]
  | cons blk rest ih =>
    intro off m
    by_cases hm : m = 0
    · simp [readBlocks, hm]
    · by_cases hle : blk.length ≤ off
      · rw [readBlocks, if_neg hm, if_pos hle, ih, List.flatten_cons,
          List.drop_append_eq_append_drop, List.drop_of_length_le hle]
        simp
      · have hoff2 : off ≤ blk.length := Nat.le_of_not_le hle
        rw [readBlocks_cons_copy blk rest off m hm hle, ih, List.flatten_cons,
          List.drop_append_eq_append_drop, Nat.sub_eq_zero_of_le hoff2,
          List.drop_zero, List.take_append_eq_append_take]
        have hidx : m - ((blk.drop off).take m).length = m - (blk.drop off).length := by
          simp only [List.length_take]
          omega
        rw [hidx]

theorem deleteBlocks_cons_skip (blk : List Char) (rest : List (List Char)) (off count : Nat)
    (hc : count ≠ 0) (hle : blk.length ≤ off) :
    deleteBlocks (blk :: rest) off count =
      (blk :: (deleteBlocks rest (off - blk.length) count).1,
       (deleteBlocks rest (off - blk.length) count).2.1,
       (deleteBlocks rest (off - blk.length) count).2.2) := by
  rw [deleteBlocks]
  simp [hc, hle]

theorem deleteBlocks_cons_over (blk : List Char) (rest : List (List Char)) (off count : Nat)
    (hc : count ≠ 0) (hlt : ¬ blk.length ≤ off) :
    deleteBlocks (blk :: rest) off count =
      (if blk.take off ++ blk.drop (off + min (blk.length - off) count) = [] then
        ((deleteBlocks rest 0 (count - min (blk.length - off) count)).1,
         (deleteBlocks rest 0 (count - min (blk.length - off) count)).2.1 + 1,
         (deleteBlocks rest 0 (count - min (blk.length - off) count)).2.2
           + min (blk.length - off) count)
      else
        ((blk.take off ++ blk.drop (off + min (blk.length - off) count))
            :: (deleteBlocks rest 0 (count - min (blk.length - off) count)).1,
         (deleteBlocks rest 0 (count - min (blk.length - off) count)).2.1,
         (deleteBlocks rest 0 (count - min (blk.length - off) count)).2.2
           + min (blk.length - off) count)) := by
  rw [deleteBlocks]
  simp [hc, hlt]

theorem deleteBlocks_flatten :
    ∀ (blocks : List (List Char)) (off count : Nat),
      (deleteBlocks blocks off count).1.flatten
        = blocks.flatten.take off ++ blocks.flatten.drop (off + count) := by
  intro blocks
  induction blocks with
  | nil => intro off count; simp [deleteBlocks]
  | cons blk rest ih =>
    intro off count
    by_cases hc : count = 0
    · simp [deleteBlocks, hc]
    · by_cases hle : blk.length ≤ off
      · rw [deleteBlocks_cons_skip blk rest off count hc hle,
          List.flatten_cons, List.flatten_cons, ih,
          List.take_append_eq_append_take, List.drop_append_eq_append_drop,
          List.take_of_length_le hle,
          List.drop_of_length_le (Nat.le_trans hle (Nat.le_add_right _ _))]
        have h1 : off + count - blk.length = off - blk.length + count := by omega
        simp [h1]
      · have hoff : off < blk.length := Nat.lt_of_not_le hle
        rw [deleteBlocks_cons_over blk rest off count hc hle]
        by_cases hnil : blk.take off ++ blk.drop (off + min (blk.length - off) count) = []
        · rw [if_pos hnil]
          rcases List.append_eq_nil.mp hnil with ⟨h4, h5⟩
          have hoff0 : off = 0 := by
            have := congrArg List.length h4
            simp only [List.length_take, List.length_nil] at this
            omega
          have hlen5 : blk.length ≤ off + min (blk.length - off) count := by
            have := congrArg List.length h5
            simp only [List.length_drop, List.length_nil] at this
            omega
          subst hoff0
          have hmin : min (blk.length - 0) count = blk.length := by omega
          have hcnt : blk.length ≤ count := by omega
          rw [ih, hmin, List.flatten_cons, List.take_append_eq_append_take,
            List.drop_append_eq_append_drop]
          simp [List.drop_of_length_le hcnt]
        · rw [if_neg hnil, List.flatten_cons, List.flatten_cons, ih,
            List.take_append_eq_append_take, List.drop_append_eq_append_drop,
            Nat.sub_eq_zero_of_le hoff.le]
          rcases Nat.le_total count (blk.length - off) with hcase | hcase
          · have hmin : min (blk.length - off) count = count := by omega
            have h2 : off + count - blk.length = 0 := by omega
            simp [hmin, h2, List.append_assoc]
          · have hmin : min (blk.length - off) count = blk.length - off := by omega
            have h2 : blk.drop (off + (blk.length - off)) = [] := by
              apply List.drop_of_length_le; omega
            have h3 : blk.drop (off + count) = [] := by
              apply List.drop_of_length_le; omega
            have h4 : off + count - blk.length = count - (blk.length - off) := by omega
            simp [hmin, h2, h3, h4, List.append_assoc]

theorem deleteBlocks_removed :
    ∀ (blocks : List (List Char)) (off count : Nat),
      (deleteBlocks blocks off count).2.2
        = min count (blocks.flatten.length - off) := by
  intro blocks
  induction blocks with
  | nil => intro off count; simp [deleteBlocks]
  | cons blk rest ih =>
    intro off count
    by_cases hc : count = 0
    · simp [deleteBlocks, hc]
    · by_cases hle : blk.length ≤ off
      · rw [deleteBlocks_cons_skip blk rest off count hc hle]
        simp only [ih, List.flatten_cons, List.length_append]
        omega
      · rw [deleteBlocks_cons_over blk rest off count hc hle]
        have hoff : off < blk.length := Nat.lt_of_not_le hle
        split <;>
          · simp only [ih, List.flatten_cons, List.length_append]
            omega

theorem deleteBlocks_ne_nil :
    ∀ (blocks : List (List Char)) (off count : Nat),
      (∀ blk ∈ blocks, blk ≠ []) →
      ∀ blk ∈ (deleteBlocks blocks off count).1, blk ≠ [] := by
  intro blocks
  induction blocks with
  | nil => intro off count _ blk hblk; simp [deleteBlocks] at hblk
  | cons b0 rest ih =>
    intro off count hall blk hblk
    by_cases hc : count = 0
    · rw [deleteBlocks] at hblk
      rw [if_pos hc] at hblk
      exact hall blk hblk
    · by_cases hle : b0.length ≤ off
      · rw [deleteBlocks_cons_skip b0 rest off count hc hle] at hblk
        rcases List.mem_cons.mp hblk with h | h
        · exact h ▸ hall b0 (List.mem_cons_self _ _)
        · exact ih (off - b0.length) count
            (fun c hc2 => hall c (List.mem_cons_of_mem _ hc2)) blk h
      · rw [deleteBlocks_cons_over b0 rest off count hc hle] at hblk
        split at hblk
        · exact ih 0 _ (fun c hc2 => hall c (List.mem_cons_of_mem _ hc2)) blk hblk
        · rename_i hnil
          rcases List.mem_cons.mp hblk with h | h
          · exact h ▸ hnil
          · exact ih 0 _ (fun c hc2 => hall c (List.mem_cons_of_mem _ hc2)) blk h

/-! ## Unfolding lemmas for the buffer operations -/

theorem insert_err (b : Runes) (text : List Char) (off : Int)
    (h : off < 0 ∨ (b.size : Int) < off) :
    b.insert text off = (0, some .invalidOffset, b) := by
  unfold Runes.insert
  rw [if_pos h]

theorem insert_nil (b : Runes) (off : Int)
    (h : ¬(off < 0 ∨ (b.size : Int) < off)) :
    b.insert [] off = (0, none, b) := by
  unfold Runes.insert
  rw [if_neg h, if_pos rfl]

theorem insert_ok (b : Runes) (text : List Char) (off : Int)
    (h1 : ¬(off < 0 ∨ (b.size : Int) < off)) (h2 : text ≠ []) :
    (b.insert text off).1 = text.length
    ∧ (b.insert text off).2.1 = none
    ∧ (b.insert text off).2.2.blockSize = b.blockSize
    ∧ (b.insert text off).2.2.blocks = insertBlocks b.blockSize text b.blocks off.toNat
    ∧ (b.insert text off).2.2.size = b.size + text.length := by
  unfold Runes.insert
  rw [if_neg h1, if_neg h2]
  exact ⟨rfl, rfl, rfl, rfl, rfl⟩

theorem delete_err (b : Runes) (count off : Int)
    (h : off < 0 ∨ (b.size : Int) - count < off) :
    b.delete count off = (0, some .invalidOffset, b) := by
  unfold Runes.delete
  rw [if_pos h]

theorem delete_ok (b : Runes) (count off : Int)
    (h : ¬(off < 0 ∨ (b.size : Int) - count < off)) :
    (b.delete count off).1 = ((deleteBlocks b.blocks off.toNat count.toNat).2.2 : Int)
    ∧ (b.delete count off).2.1 = none
    ∧ (b.delete count off).2.2.blockSize = b.blockSize
    ∧ (b.delete count off).2.2.blocks = (deleteBlocks b.blocks off.toNat count.toNat).1
    ∧ (b.delete count off).2.2.free = b.free + (deleteBlocks b.blocks off.toNat count.toNat).2.1
    ∧ (b.delete count off).2.2.size = b.size - (deleteBlocks b.blocks off.toNat count.toNat).2.2 := by
  unfold Runes.delete
  rw [if_neg h]
  exact ⟨rfl, rfl, rfl, rfl, rfl, rfl⟩

theorem read_neg (b : Runes) (m : Nat) (off : Int) (h : off < 0) :
    b.read m off = (0, some .invalidOffset, []) := by
  unfold Runes.read
  rw [if_pos h]

theorem read_zero (b : Runes) (off : Int) (h : ¬ off < 0) :
    b.read 0 off = (0, none, []) := by
  unfold Runes.read
  rw [if_neg h, if_pos rfl]

theorem read_pos (b : Runes) (m : Nat) (off : Int) (h1 : ¬ off < 0) (h2 : m ≠ 0) :
    b.read m off
      = ((readBlocks b.blocks off.toNat m).length,
         if (readBlocks b.blocks off.toNat m).length < m then some .endOfInput else none,
         readBlocks b.blocks off.toNat m) := by
  unfold Runes.read
  rw [if_neg h1, if_neg h2]

/-! ## The structural invariant is established and preserved -/

theorem wf_new (bs : Nat) : Wf (Runes.new bs) := by
  constructor <;> simp [Runes.new, Runes.text]

theorem wf_insert (b : Runes) (text : List Char) (off : Int) (hwf : Wf b) :
    Wf (b.insert text off).2.2 := by
  obtain ⟨hsize, hne⟩ := hwf
  by_cases h1 : off < 0 ∨ (b.size : Int) < off
  · rw [insert_err b text off h1]
    exact ⟨hsize, hne⟩
  · by_cases h2 : text = []
    · subst h2
      rw [insert_nil b off h1]
      exact ⟨hsize, hne⟩
    · obtain ⟨_, _, _, hblocks, hsz⟩ := insert_ok b text off h1 h2
      have hoff : off.toNat ≤ b.text.length := by
        rw [← hsize]
        omega
      constructor
      · rw [hsz, Runes.text, hblocks,
          insertBlocks_flatten b.blockSize text b.blocks off.toNat hoff]
        rw [Runes.text] at hsize hoff
        simp only [List.length_append, List.length_take, List.length_drop]
        omega
      · rw [hblocks]
        exact insertBlocks_ne_nil b.blockSize text b.blocks off.toNat hne

theorem wf_delete (b : Runes) (count off : Int) (hwf : Wf b) :
    Wf (b.delete count off).2.2 := by
  obtain ⟨hsize, hne⟩ := hwf
  by_cases h : off < 0 ∨ (b.size : Int) - count < off
  · rw [delete_err b count off h]
    exact ⟨hsize, hne⟩
  · obtain ⟨_, _, _, hblocks, _, hsz⟩ := delete_ok b count off h
    constructor
    · rw [hsz, Runes.text, hblocks, deleteBlocks_flatten,
        deleteBlocks_removed]
      rw [Runes.text] at hsize
      simp only [List.length_append, List.length_take, List.length_drop]
      omega
    · rw [hblocks]
      exact deleteBlocks_ne_nil b.blocks off.toNat count.toNat hne

theorem wf_reachable (b : Runes) (h : Reachable b) : Wf b := by
  induction h with
  | new bs _ => exact wf_new bs
  | insert text off _ ih => exact wf_insert _ text off ih
  | delete count off _ ih => exact wf_delete _ count off ih

theorem deleteBlocks_zero : ∀ (blocks : List (List Char)) (off : Nat),
    deleteBlocks blocks off 0 = (blocks, 0, 0)
  | [], _ => rfl
  | blk :: rest, off => by rw [deleteBlocks]; simp

theorem delete_zero_noop (b : Runes) (off : Int)
    (h : ¬(off < 0 ∨ (b.size : Int) - 0 < off)) :
    b.delete 0 off = (0, none, b) := by
  unfold Runes.delete
  rw [if_neg h]
  have hz : deleteBlocks b.blocks off.toNat (Int.toNat 0) = (b.blocks, 0, 0) :=
    deleteBlocks_zero b.blocks off.toNat
  rw [hz]
  rfl

/-! ## The claims -/

/-- Claim C1: for every well-formed buffer state and every valid offset
(`0 ≤ at ≤ Size()`), inserting a rune sequence `text` at offset `at` and then
reading `len(text)` runes starting at offset `at` returns exactly `text`. -/
theorem insert_read_roundtrip (b : Runes) (text : List Char) (off : Int)
    (hwf : Wf b) (h0 : 0 ≤ off) (h1 : off ≤ (b.size : Int)) :
    ((b.insert text off).2.2.read text.length off).2.2 = text
    ∧ ((b.insert text off).2.2.read text.length off).1 = text.length := by
  obtain ⟨hsize, _⟩ := hwf
  by_cases h2 : text = []
  · subst h2
    rw [insert_nil b off (by omega)]
    simp only [List.length_nil]
    rw [read_zero _ off (by omega)]
    exact ⟨rfl, rfl⟩
  · obtain ⟨_, _, _, hblocks, _⟩ := insert_ok b text off (by omega) h2
    have hoff : off.toNat ≤ b.text.length := by
      rw [← hsize]; omega
    have hflat : (b.insert text off).2.2.blocks.flatten
        = b.text.take off.toNat ++ (text ++ b.text.drop off.toNat) := by
      rw [hblocks, insertBlocks_flatten b.blockSize text b.blocks off.toNat hoff]
      simp [Runes.text]
    have hrb : readBlocks (b.insert text off).2.2.blocks off.toNat text.length = text := by
      rw [readBlocks_eq, hflat, List.drop_append_eq_append_drop]
      have e1 : List.drop off.toNat (b.text.take off.toNat) = [] := by
        apply List.drop_of_length_le
        simp
      have e2 : off.toNat - (b.text.take off.toNat).length = 0 := by
        simp only [List.length_take]
        omega
      rw [e1, e2, List.nil_append, List.drop_zero, List.take_append_eq_append_take,
        Nat.sub_self, List.take_zero, List.append_nil, List.take_length]
    rw [read_pos _ text.length off (by omega) (by simp [h2]), hrb]
    simp

/-- Claim C2: with block size 8 and an empty buffer,
`Insert("01234567abcdefghSTUVWXYZ", 0)` returns 24 and yields three in-use
blocks of 8 runes each; a subsequent `Insert("!@#", 12)` returns 3, splits
the second block at local offset 4 without merging any fragments, yielding
the block size sequence `[8, 4, 3, 4, 8]` and full content
`"01234567abcd!@#efghSTUVWXYZ"`. -/
theorem insert_split_scenario :
    (((Runes.new 8).insert "01234567abcdefghSTUVWXYZ".toList 0).1 = 24
      ∧ ((Runes.new 8).insert "01234567abcdefghSTUVWXYZ".toList 0).2.1 = none
      ∧ (((Runes.new 8).insert "01234567abcdefghSTUVWXYZ".toList 0).2.2.blocks.map
          List.length) = [8, 8, 8])
    ∧ ((((Runes.new 8).insert "01234567abcdefghSTUVWXYZ".toList 0).2.2.insert
          "!@#".toList 12).1 = 3
      ∧ (((Runes.new 8).insert "01234567abcdefghSTUVWXYZ".toList 0).2.2.insert
          "!@#".toList 12).2.1 = none
      ∧ ((((Runes.new 8).insert "01234567abcdefghSTUVWXYZ".toList 0).2.2.insert
          "!@#".toList 12).2.2.blocks.map List.length) = [8, 4, 3, 4, 8]
      ∧ (((Runes.new 8).insert "01234567abcdefghSTUVWXYZ".toList 0).2.2.insert
          "!@#".toList 12).2.2.text = "01234567abcd!@#efghSTUVWXYZ".toList) := by
  decide

/-- Claim C3: `Insert(text, at)` fails with `InvalidOffset` if and only if
`at < 0` or `at > Size()`; insertion at exactly `at = Size()` succeeds, and
inserting empty text at any valid offset succeeds, returns 0, and causes no
structural change. -/
theorem insert_offset_validity (b : Runes) (text : List Char) (off : Int) :
    ((b.insert text off).2.1 = some Err.invalidOffset
        ↔ (off < 0 ∨ (b.size : Int) < off))
    ∧ (b.insert text (b.size : Int)).2.1 = none
    ∧ (0 ≤ off → off ≤ (b.size : Int) → b.insert [] off = (0, none, b)) := by
  refine ⟨?_, ?_, ?_⟩
  · by_cases h : off < 0 ∨ (b.size : Int) < off
    · rw [insert_err b text off h]
      simp [h]
    · by_cases h2 : text = []
      · subst h2
        rw [insert_nil b off h]
        simp [h]
      · obtain ⟨_, he, _, _, _⟩ := insert_ok b text off h h2
        rw [he]
        simp [h]
  · have h : ¬((b.size : Int) < 0 ∨ (b.size : Int) < (b.size : Int)) := by omega
    by_cases h2 : text = []
    · subst h2
      rw [insert_nil b (b.size : Int) h]
    · exact (insert_ok b text (b.size : Int) h h2).2.1
  · intro ha hb
    exact insert_nil b off (by omega)

/-- Claim C4: `Delete(count, at)` fails with `InvalidOffset` if and only if
`at < 0` or `at > Size() - count`; when `count = 0` any `at` in
`[0, Size()]` is valid and the call is a no-op returning 0; on success the
call returns `count`, the deleted span is removed from the content, and
`Size()` decreases by `count`. -/
theorem delete_offset_validity (b : Runes) (count : Nat) (off : Int) (hwf : Wf b) :
    ((b.delete (count : Int) off).2.1 = some Err.invalidOffset
        ↔ (off < 0 ∨ (b.size : Int) - count < off))
    ∧ (0 ≤ off → off ≤ (b.size : Int) → b.delete 0 off = (0, none, b))
    ∧ (0 ≤ off → off ≤ (b.size : Int) - count →
        (b.delete (count : Int) off).1 = count
        ∧ (b.delete (count : Int) off).2.2.size = b.size - count
        ∧ (b.delete (count : Int) off).2.2.text
            = b.text.take off.toNat ++ b.text.drop (off.toNat + count)) := by
  obtain ⟨hsize, _⟩ := hwf
  rw [Runes.text] at hsize
  refine ⟨?_, ?_, ?_⟩
  · by_cases h : off < 0 ∨ (b.size : Int) - count < off
    · rw [delete_err b (count : Int) off h]
      simp [h]
    · obtain ⟨_, he, _, _, _, _⟩ := delete_ok b (count : Int) off h
      rw [he]
      simp [h]
  · intro h0 h1
    exact delete_zero_noop b off (by omega)
  · intro h0 h1
    obtain ⟨hret, _, _, hblocks, _, hsz⟩ := delete_ok b (count : Int) off (by omega)
    rw [deleteBlocks_removed] at hret hsz
    refine ⟨?_, ?_, ?_⟩
    · rw [hret]
      omega
    · rw [hsz]
      congr 1
      omega
    · rw [Runes.text, hblocks, deleteBlocks_flatten, Runes.text]
      have hc : (count : Int).toNat = count := by omega
      rw [hc]

/-- Claim C5: for every well-formed buffer, offset `at ≥ 0` and destination
length `m > 0`, `Read` copies exactly `min(m, Size() - at)` runes (0 if
`at ≥ Size()`) left-to-right; when fewer than `m` runes were copied the
partial count is returned together with `EndOfInput`, and when exactly `m`
were copied no error is returned, even if the copy ends exactly at the end
of the document. -/
theorem read_copies_min (b : Runes) (m : Nat) (off : Int) (hwf : Wf b)
    (h0 : 0 ≤ off) (hm : 0 < m) :
    (b.read m off).1 = min m (b.size - off.toNat)
    ∧ (b.read m off).2.2 = (b.text.drop off.toNat).take m
    ∧ ((b.read m off).1 < m → (b.read m off).2.1 = some Err.endOfInput)
    ∧ ((b.read m off).1 = m → (b.read m off).2.1 = none) := by
  obtain ⟨hsize, _⟩ := hwf
  rw [Runes.text] at hsize
  rw [read_pos b m off (by omega) (by omega), readBlocks_eq]
  refine ⟨?_, rfl, ?_, ?_⟩
  · simp only [List.length_take, List.length_drop]
    omega
  · intro h
    rw [if_pos h]
  · intro h
    rw [if_neg (by omega)]

/-- Claim C6: `Read` fails with `InvalidOffset` exactly when `at < 0`; for
every offset `at ≥ Size()`, including offsets far beyond `Size()`, a read
with a nonempty destination succeeds structurally, copies 0 runes, and
reports `EndOfInput` rather than an offset error. -/
theorem read_negative_offset_only (b : Runes) (m : Nat) (off : Int) (hwf : Wf b) :
    ((b.read m off).2.1 = some Err.invalidOffset ↔ off < 0)
    ∧ ((b.size : Int) ≤ off → 0 < m →
        (b.read m off).1 = 0 ∧ (b.read m off).2.1 = some Err.endOfInput) := by
  obtain ⟨hsize, _⟩ := hwf
  rw [Runes.text] at hsize
  constructor
  · by_cases h : off < 0
    · rw [read_neg b m off h]
      simp [h]
    · by_cases hm : m = 0
      · subst hm
        rw [read_zero b off h]
        simp [h]
      · rw [read_pos b m off h hm]
        simp only [h, iff_false]
        split <;> simp
  · intro hge hm
    have hnn : ¬ off < 0 := by omega
    rw [read_pos b m off hnn (by omega), readBlocks_eq]
    have hdrop : b.blocks.flatten.length ≤ off.toNat := by omega
    simp [List.drop_of_length_le hdrop, hm]

/-- Claim C7: for every buffer and every offset `at ≥ 0`, including
`at = Size()` and beyond, `Read` with a zero-length destination returns
count 0 with no error. -/
theorem read_empty_dest_ok (b : Runes) (off : Int) (h : 0 ≤ off) :
    b.read 0 off = (0, none, []) :=
  read_zero b off (by omega)

/-- Claim C8: with block size 8, inserting 9 runes into an empty buffer
leaves 2 blocks in use; deleting all 9 runes leaves 0 blocks in use and 2
blocks in the reuse pool; a subsequent insert of 4 runes leaves 1 block in
use and 1 block in the pool — the block is pulled from the pool rather than
freshly allocated. -/
theorem block_pool_reuse_scenario :
    (((Runes.new 8).insert "αβξδφγθιζ".toList 0).2.2.blocks.length = 2
      ∧ ((Runes.new 8).insert "αβξδφγθιζ".toList 0).2.2.free = 0)
    ∧ ((((Runes.new 8).insert "αβξδφγθιζ".toList 0).2.2.delete 9 0).1 = 9
      ∧ (((Runes.new 8).insert "αβξδφγθιζ".toList 0).2.2.delete 9 0).2.2.blocks.length = 0
      ∧ (((Runes.new 8).insert "αβξδφγθιζ".toList 0).2.2.delete 9 0).2.2.free = 2)
    ∧ (((((Runes.new 8).insert "αβξδφγθιζ".toList 0).2.2.delete 9 0).2.2.insert
          "αβξδ".toList 0).2.2.blocks.length = 1
      ∧ ((((Runes.new 8).insert "αβξδφγθιζ".toList 0).2.2.delete 9 0).2.2.insert
          "αβξδ".toList 0).2.2.free = 1) := by
  decide

/-- Claim C9: in every buffer state reachable by any sequence of operations,
`Size()` equals the sum of the valid rune counts over all blocks in the
sequence, equals the number of runes obtained by reading `[0, Size())`, and
every block in the sequence is nonempty. -/
theorem reachable_size_invariants (b : Runes) (h : Reachable b) :
    b.size = (b.blocks.map List.length).sum
    ∧ (b.read b.size 0).1 = b.size
    ∧ ∀ blk ∈ b.blocks, blk ≠ [] := by
  obtain ⟨hsize, hne⟩ := wf_reachable b h
  refine ⟨?_, ?_, hne⟩
  · rw [hsize, Runes.text, List.length_flatten]
  · rw [Runes.text] at hsize
    by_cases hz : b.size = 0
    · rw [hz, read_zero b 0 (by omega)]
    · rw [read_pos b b.size 0 (by omega) hz, readBlocks_eq]
      simp only [Int.toNat_zero, List.drop_zero, List.length_take]
      omega

/-- Claim C10: when `Insert` or `Delete` fails with `InvalidOffset`, the
operation returns count 0 and the buffer is left completely unchanged —
failure is atomic. -/
theorem failed_mutation_atomic (b : Runes) (text : List Char) (count off1 off2 : Int) :
    ((b.insert text off1).2.1 = some Err.invalidOffset →
      (b.insert text off1).1 = 0 ∧ (b.insert text off1).2.2 = b)
    ∧ ((b.delete count off2).2.1 = some Err.invalidOffset →
      (b.delete count off2).1 = 0 ∧ (b.delete count off2).2.2 = b) := by
  constructor
  · intro herr
    by_cases h : off1 < 0 ∨ (b.size : Int) < off1
    · rw [insert_err b text off1 h]
      exact ⟨rfl, rfl⟩
    · exfalso
      by_cases h2 : text = []
      · rw [h2, insert_nil b off1 h] at herr
        simp at herr
      · rw [(insert_ok b text off1 h h2).2.1] at herr
        simp at herr
  · intro herr
    by_cases h : off2 < 0 ∨ (b.size : Int) - count < off2
    · rw [delete_err b count off2 h]
      exact ⟨rfl, rfl⟩
    · exfalso
      rw [(delete_ok b count off2 h).2.1] at herr
      simp at herr

/-! ## Concrete witnesses for the claims with hypotheses -/

/-- Witness for C1 at a concrete input: inserting "abc" into an empty buffer
at 0 and reading 3 runes at 0 gives back "abc". -/
theorem insert_read_roundtrip_witness :
    (((Runes.new 8).insert ['a', 'b', 'c'] 0).2.2.read 3 0).2.2 = ['a', 'b', 'c']
    ∧ (((Runes.new 8).insert ['a', 'b', 'c'] 0).2.2.read 3 0).1 = 3 :=
  insert_read_roundtrip (Runes.new 8) ['a', 'b', 'c'] 0 (wf_new 8) (by decide) (by decide)

/-- Witness for C3 at a concrete input: inserting empty text at offset 0 of
an empty buffer is a no-op returning 0 with no error. -/
theorem insert_offset_validity_witness :
    (0 : Int) ≤ 0 ∧ (Runes.new 8).insert [] 0 = (0, none, Runes.new 8) :=
  ⟨by decide, (insert_offset_validity (Runes.new 8) [] 0).2.2 (by decide) (by decide)⟩

/-- Witness for C4 at a concrete input: deleting 2 runes at offset 1 of
"Hello" returns 2 and shrinks the size from 5 to 3. -/
theorem delete_offset_validity_witness :
    ((((Runes.new 8).insert "Hello".toList 0).2.2.delete (2 : Int) 1).1 = (2 : Nat))
    ∧ (((Runes.new 8).insert "Hello".toList 0).2.2.delete (2 : Int) 1).2.2.size = 3 := by
  have h := delete_offset_validity ((Runes.new 8).insert "Hello".toList 0).2.2 2 1
    (wf_insert (Runes.new 8) "Hello".toList 0 (wf_new 8))
  obtain ⟨-, -, h3⟩ := h
  obtain ⟨ha, hb, -⟩ := h3 (by decide) (by decide)
  exact ⟨ha, hb.trans (by decide)⟩

/-- Witness for C5 at a concrete input: reading 8 runes at offset 2 of
"Hello" copies min(8, 5-2) = 3 runes and reports `EndOfInput`. -/
theorem read_copies_min_witness :
    (((Runes.new 8).insert "Hello".toList 0).2.2.read 8 2).1 = 3
    ∧ (((Runes.new 8).insert "Hello".toList 0).2.2.read 8 2).2.1
        = some Err.endOfInput := by
  have h := read_copies_min ((Runes.new 8).insert "Hello".toList 0).2.2 8 2
    (wf_insert (Runes.new 8) "Hello".toList 0 (wf_new 8)) (by decide) (by decide)
  obtain ⟨h1, -, h3, -⟩ := h
  constructor
  · rw [h1]
    decide
  · apply h3
    rw [h1]
    decide

/-- Witness for C6 at concrete inputs: a negative offset yields
`InvalidOffset`; reading past the end of an empty buffer copies 0 and
reports `EndOfInput`. -/
theorem read_negative_offset_only_witness :
    ((Runes.new 8).read 1 (-1)).2.1 = some Err.invalidOffset
    ∧ ((Runes.new 8).read 1 5).1 = 0
    ∧ ((Runes.new 8).read 1 5).2.1 = some Err.endOfInput := by
  have h := read_negative_offset_only (Runes.new 8) 1 (-1) (wf_new 8)
  have h2 := read_negative_offset_only (Runes.new 8) 1 5 (wf_new 8)
  exact ⟨h.1.mpr (by decide), (h2.2 (by decide) (by decide)).1,
    (h2.2 (by decide) (by decide)).2⟩

/-- Witness for C7 at a concrete input: a zero-length read of the empty
buffer at offset 0 returns count 0 and no error. -/
theorem read_empty_dest_ok_witness :
    (Runes.new 8).read 0 0 = (0, none, []) :=
  read_empty_dest_ok (Runes.new 8) 0 (by decide)

/-- Witness for C9 at a concrete reachable state: after inserting "Hi" into
an empty buffer, `Size()` matches the block-length sum and the full read
count. -/
theorem reachable_size_invariants_witness :
    (((Runes.new 8).insert "Hi".toList 0).2.2.size
        = ((((Runes.new 8).insert "Hi".toList 0).2.2.blocks.map List.length).sum))
    ∧ ((((Runes.new 8).insert "Hi".toList 0).2.2.read
          ((Runes.new 8).insert "Hi".toList 0).2.2.size 0).1
        = ((Runes.new 8).insert "Hi".toList 0).2.2.size) := by
  have h := reachable_size_invariants ((Runes.new 8).insert "Hi".toList 0).2.2
    (Reachable.insert "Hi".toList 0 (Reachable.new 8 (by decide)))
  exact ⟨h.1, h.2.1⟩

/-- Witness for C10 at concrete inputs: a failed insert at offset -1 and a
failed delete of 1 rune from an empty buffer both return 0 and leave the
buffer unchanged. -/
theorem failed_mutation_atomic_witness :
    (((Runes.new 8).insert ['a'] (-1)).1 = 0
      ∧ ((Runes.new 8).insert ['a'] (-1)).2.2 = Runes.new 8)
    ∧ (((Runes.new 8).delete 1 0).1 = 0
      ∧ ((Runes.new 8).delete 1 0).2.2 = Runes.new 8) := by
  have h := failed_mutation_atomic (Runes.new 8) ['a'] 1 (-1) 0
  exact ⟨h.1 (by decide), h.2 (by decide)⟩

end TBuf
